import Mathlib

/-!
# Verification of the skeletal-animation / texture-resolution core

Shallow embedding of the animation-evaluation and texture-resolution
functions of `viewer-example.py`:

* `evaluate_track`            → `evaluateTrack`   (lines 323–356)
* `evaluate_bone_transform`   → `evalBoneTransform` (lines 359–392)
* `compute_deformed_positions`→ `deformVertex` / `deform` (lines 395–422)
* `_find_texture_files`       → `findTextureFiles` (lines 429–496)
* `_resolve_texture_path`     → `resolveTexturePath` (lines 499–521)
* `_resolve_textures`         → `resolveTextures` (lines 524–560)

Modelling conventions:

* Python floats are idealized as exact rationals `ℚ`; numpy 4×4 float
  matrices become `Mat4 := Fin 4 → Fin 4 → ℚ`.
* Python ints are `ℤ` (or `ℕ` where the value is an index/count).
* A fallible computation returns `Except Unit α`: `.error ()` stands for a
  raised Python exception (IndexError / KeyError / OSError), which is
  distinct from the in-band absent value `none`.
* Recursive functions that the source runs on a call stack take an explicit
  `fuel : ℕ`; returning `none` on fuel 0 models Python's RecursionError /
  non-termination on corrupt (cyclic) data.
* The quaternion/vector blending functions (`_lerp`, `_nlerp`) are passed as
  parameters to the evaluator, exactly as the source selects between them
  with `is_quat`; `_nlerp` renormalizes with `math.sqrt`, which has no exact
  rational counterpart, so theorems about the evaluator quantify over the
  blend used and therefore hold in particular for the source's `_lerp` and
  `_nlerp`.
* Python `str` values are code-point sequences `List Char`; `str.lower()`
  becomes `List.map Char.toLower` (the filenames the source compares are
  ASCII, where the two coincide).
-/

/-! ## Rational 3-vectors, quaternions and 4×4 matrices -/

abbrev Vec3 := Fin 3 → ℚ

/-- Quaternion `(x, y, z, w)`, the component order used by the source. -/
abbrev Quat := ℚ × ℚ × ℚ × ℚ

abbrev Mat4 := Fin 4 → Fin 4 → ℚ

/-- `np.eye(4)`. -/
def eyeM : Mat4 := fun i j => if i = j then 1 else 0

/-- numpy `@` on 4×4 matrices (exact over `ℚ`). -/
def mmul (A B : Mat4) : Mat4 := fun i j =>
  A i 0 * B 0 j + A i 1 * B 1 j + A i 2 * B 2 j + A i 3 * B 3 j

theorem mmul_assoc (A B C : Mat4) : mmul (mmul A B) C = mmul A (mmul B C) := by
  funext i j
  simp only [mmul]
  ring

theorem mmul_eye (A : Mat4) : mmul A eyeM = A := by
  funext i j
  fin_cases i <;> fin_cases j <;> simp [mmul, eyeM]

theorem eye_mmul (A : Mat4) : mmul eyeM A = A := by
  funext i j
  fin_cases i <;> fin_cases j <;> simp [mmul, eyeM]

def zeroV : Vec3 := fun _ => 0

def oneV : Vec3 := fun _ => 1

def negV (v : Vec3) : Vec3 := fun i => -v i

/-- Identity quaternion `(0, 0, 0, 1)` (the fallback in `_nlerp`). -/
def idQuat : Quat := (0, 0, 0, 1)

/-- `_quat_to_matrix` (lines 310–320): quaternion `(x,y,z,w)` to a 3×3
rotation matrix. -/
def quatToMatrix (q : Quat) : Fin 3 → Fin 3 → ℚ :=
  let x := q.1; let y := q.2.1; let z := q.2.2.1; let w := q.2.2.2
  ![![1 - 2*(y*y + z*z),     2*(x*y - w*z),     2*(x*z + w*y)],
    ![    2*(x*y + w*z), 1 - 2*(x*x + z*z),     2*(y*z - w*x)],
    ![    2*(x*z - w*y),     2*(y*z + w*x), 1 - 2*(x*x + y*y)]]

/-! ## Keyframe tracks and `evaluate_track` (lines 323–356) -/

/-- The in-memory shape of an `M2Track` as consumed by the evaluator:
interpolation kind, per-animation `(start_index, end_index)` ranges, and the
shared flat `timestamps` / `values` arrays. -/
structure M2Track (V : Type) where
  interp_type : ℤ
  ranges : List (ℕ × ℕ)
  timestamps : List ℤ
  values : List V

/-- Lift a Python indexing expression `xs[i]` whose index may be out of
bounds: `none` (an `IndexError`) becomes `.error ()`, a present value is
returned. -/
def exVal {V : Type} : Option V → Except Unit (Option V)
  | none => .error ()
  | some v => .ok (some v)

/-- The `while lo < hi - 1` midpoint search of lines 343–349.  Out-of-range
reads default to `0`; every call site keeps `lo` and `hi` inside the array. -/
def bsearch (ts : List ℤ) (g : ℤ) (lo hi : ℕ) : ℕ × ℕ :=
  if _h : lo + 1 < hi then
    if ts.getD ((lo + hi) / 2) 0 ≤ g then bsearch ts g ((lo + hi) / 2) hi
    else bsearch ts g lo ((lo + hi) / 2)
  else (lo, hi)
termination_by hi - lo
decreasing_by all_goals omega

/-- A Python indexing expression `xs[i]` used inside a larger computation:
an out-of-bounds read (`none`) raises, i.e. aborts with `.error ()`;
otherwise the continuation receives the element. -/
def withVal {A V : Type} (o : Option A) (k : A → Except Unit (Option V)) :
    Except Unit (Option V) :=
  match o with
  | none => .error ()
  | some a => k a

@[simp] theorem withVal_some {A V : Type} (a : A)
    (k : A → Except Unit (Option V)) : withVal (some a) k = k a := rfl

@[simp] theorem withVal_none {A V : Type}
    (k : A → Except Unit (Option V)) : withVal none k = .error () := rfl

@[simp] theorem exVal_some_eq {V : Type} (v : V) :
    exVal (some v) = .ok (some v) := rfl

/-- Lines 350–356: the interpolation step once the bracketing pair `(lo, hi)`
is known.  Mirrors the source's short-circuit: with `interp_type == 0` only
`vals[lo]` is touched. -/
def finishTrack {V : Type} (blend : V → V → ℚ → V) (interp : ℤ) (ts : List ℤ)
    (vals : List V) (g : ℤ) (lo hi : ℕ) : Except Unit (Option V) :=
  if interp = 0 then exVal vals[lo]?
  else
    withVal ts[hi]? fun th =>
    withVal ts[lo]? fun tl =>
      if th = tl then exVal vals[lo]?
      else
        withVal vals[lo]? fun vl =>
        withVal vals[hi]? fun vh =>
          .ok (some (blend vl vh (((g - tl : ℤ) : ℚ) / ((th - tl : ℤ) : ℚ))))

/-- `evaluate_track` (lines 323–356).  `blend` is the interpolation function
the source picks with `is_quat` (`_lerp` or `_nlerp`). -/
def evaluateTrack {V : Type} (blend : V → V → ℚ → V) (track : M2Track V)
    (animIndex : ℕ) (timeMs : ℤ) : Except Unit (Option V) :=
  if track.values.isEmpty then .ok none
  else
    match track.ranges[animIndex]? with
    | none => .ok none
    | some (startIdx, endIdx) =>
      if startIdx ≥ endIdx ∨ startIdx ≥ track.timestamps.length then .ok none
      else
        -- the source's locals `end_idx = min(end_idx, len(ts))` and
        -- `global_time = base_time + time_ms` are written out in full below
        withVal track.timestamps[startIdx]? fun baseTime =>
          if baseTime + timeMs ≤ baseTime then exVal track.values[startIdx]?
          else
            withVal track.timestamps[min endIdx track.timestamps.length - 1]?
              fun lastTime =>
              if baseTime + timeMs ≥ lastTime then
                exVal track.values[min endIdx track.timestamps.length - 1]?
              else
                finishTrack blend track.interp_type track.timestamps
                  track.values (baseTime + timeMs)
                  (bsearch track.timestamps (baseTime + timeMs) startIdx
                    (min endIdx track.timestamps.length - 1)).1
                  (bsearch track.timestamps (baseTime + timeMs) startIdx
                    (min endIdx track.timestamps.length - 1)).2

/-- The "no value" condition of the specification: no keyframes, animation
index out of range for `ranges`, empty selected range, or a start index at or
beyond the end of the timestamp array. -/
def noValueCond {V : Type} (track : M2Track V) (animIndex : ℕ) : Bool :=
  track.values.isEmpty ||
    match track.ranges[animIndex]? with
    | none => true
    | some (s, e) => decide (s ≥ e) || decide (s ≥ track.timestamps.length)

theorem bsearch_bounds (ts : List ℤ) (g : ℤ) :
    ∀ n lo hi, hi - lo ≤ n → lo ≤ hi →
      lo ≤ (bsearch ts g lo hi).1 ∧ (bsearch ts g lo hi).1 ≤ (bsearch ts g lo hi).2 ∧
        (bsearch ts g lo hi).2 ≤ hi := by
  intro n
  induction n with
  | zero =>
    intro lo hi h1 h2
    rw [bsearch, dif_neg (by omega : ¬ lo + 1 < hi)]
    omega
  | succ n ih =>
    intro lo hi h1 h2
    by_cases h : lo + 1 < hi
    · rw [bsearch, dif_pos h]
      by_cases hmid : ts.getD ((lo + hi) / 2) 0 ≤ g
      · rw [if_pos hmid]
        have := ih ((lo + hi) / 2) hi (by omega) (by omega)
        omega
      · rw [if_neg hmid]
        have := ih lo ((lo + hi) / 2) (by omega) (by omega)
        omega
    · rw [bsearch, dif_neg h]
      omega

theorem exVal_some {V : Type} (l : List V) (i : ℕ) (h : i < l.length) :
    ∃ v, exVal l[i]? = .ok (some v) := by
  rw [List.getElem?_eq_getElem h]
  exact ⟨l[i], rfl⟩

theorem evaluateTrack_none_of_cond {V : Type} (blend : V → V → ℚ → V)
    (track : M2Track V) (anim : ℕ) (t : ℤ) (h : noValueCond track anim = true) :
    evaluateTrack blend track anim t = .ok none := by
  unfold noValueCond at h
  unfold evaluateTrack
  cases hV : track.values.isEmpty with
  | true => simp [hV]
  | false =>
    rw [hV] at h
    simp only [Bool.false_or] at h
    cases hR : track.ranges[anim]? with
    | none => simp [hV, hR]
    | some se =>
      obtain ⟨s, e⟩ := se
      rw [hR] at h
      have hcond : s ≥ e ∨ s ≥ track.timestamps.length := by
        simpa using h
      simp [hV, hR, hcond]

theorem finishTrack_some {V : Type} (blend : V → V → ℚ → V) (interp : ℤ)
    (ts : List ℤ) (vals : List V) (g : ℤ) (lo hi : ℕ)
    (hlo : lo < ts.length) (hhi : hi < ts.length)
    (hinv : vals.length = ts.length) :
    ∃ v, finishTrack blend interp ts vals g lo hi = .ok (some v) := by
  unfold finishTrack
  by_cases h0 : interp = 0
  · rw [if_pos h0]
    exact exVal_some vals lo (by omega)
  · rw [if_neg h0]
    simp only [List.getElem?_eq_getElem hhi, List.getElem?_eq_getElem hlo,
      withVal_some]
    by_cases heq : ts[hi] = ts[lo]
    · rw [if_pos heq]
      exact exVal_some vals lo (by omega)
    · rw [if_neg heq]
      simp only [List.getElem?_eq_getElem (show lo < vals.length by omega),
        List.getElem?_eq_getElem (show hi < vals.length by omega), withVal_some]
      exact ⟨_, rfl⟩

theorem evaluateTrack_some_of_cond_false {V : Type} (blend : V → V → ℚ → V)
    (track : M2Track V) (anim : ℕ) (t : ℤ)
    (hinv : track.values.length = track.timestamps.length)
    (h : noValueCond track anim = false) :
    ∃ v, evaluateTrack blend track anim t = .ok (some v) := by
  unfold noValueCond at h
  unfold evaluateTrack
  cases hV : track.values.isEmpty with
  | true => simp [hV] at h
  | false =>
    rw [hV] at h
    simp only [Bool.false_or] at h
    cases hR : track.ranges[anim]? with
    | none => simp [hR] at h
    | some se =>
      obtain ⟨s, e⟩ := se
      rw [hR] at h
      have hse : ¬ (s ≥ e ∨ s ≥ track.timestamps.length) := by
        simpa using h
      push_neg at hse
      obtain ⟨hse1, hse2⟩ := hse
      have hs : s < track.timestamps.length := hse2
      have hend : min e track.timestamps.length - 1 < track.timestamps.length := by
        omega
      simp only [hV, hR, if_neg (by omega : ¬ (s ≥ e ∨ s ≥ track.timestamps.length)),
        Bool.false_eq_true, if_false, List.getElem?_eq_getElem hs,
        List.getElem?_eq_getElem hend, withVal_some]
      by_cases hc1 : track.timestamps[s] + t ≤ track.timestamps[s]
      · rw [if_pos hc1]
        exact exVal_some _ s (by omega)
      · rw [if_neg hc1]
        by_cases hc2 : track.timestamps[s] + t ≥
            track.timestamps[min e track.timestamps.length - 1]
        · rw [if_pos hc2]
          exact exVal_some _ _ (by omega)
        · rw [if_neg hc2]
          have hb := bsearch_bounds track.timestamps (track.timestamps[s] + t)
            (min e track.timestamps.length - 1 - s) s
            (min e track.timestamps.length - 1) (by omega) (by omega)
          exact finishTrack_some _ _ _ _ _ _ _ (by omega) (by omega) hinv

theorem exVal_ok {V : Type} {o : Option V} {v : V}
    (h : exVal o = .ok (some v)) : o = some v := by
  cases o with
  | none => simp [exVal] at h
  | some a => simpa [exVal] using h

theorem withVal_ok {A V : Type} {o : Option A} {k : A → Except Unit (Option V)}
    {v : V} (h : withVal o k = .ok (some v)) :
    ∃ a, o = some a ∧ k a = .ok (some v) := by
  cases o with
  | none => simp [withVal] at h
  | some a => exact ⟨a, rfl, h⟩

theorem finishTrack_mem {V : Type} (blend : V → V → ℚ → V) (interp : ℤ)
    (ts : List ℤ) (vals : List V) (g : ℤ) (lo hi : ℕ) (h0 : interp = 0)
    {v : V} (h : finishTrack blend interp ts vals g lo hi = .ok (some v)) :
    v ∈ vals := by
  unfold finishTrack at h
  rw [if_pos h0] at h
  exact List.getElem?_mem (exVal_ok h)

theorem evaluateTrack_step_mem {V : Type} (blend : V → V → ℚ → V)
    (track : M2Track V) (anim : ℕ) (t : ℤ) (h0 : track.interp_type = 0)
    {v : V} (h : evaluateTrack blend track anim t = .ok (some v)) :
    v ∈ track.values := by
  unfold evaluateTrack at h
  split at h
  · simp at h
  · split at h
    · simp at h
    · split at h
      · simp at h
      · obtain ⟨base, -, h⟩ := withVal_ok h
        split at h
        · exact List.getElem?_mem (exVal_ok h)
        · obtain ⟨lastT, -, h⟩ := withVal_ok h
          split at h
          · exact List.getElem?_mem (exVal_ok h)
          · exact finishTrack_mem _ _ _ _ _ _ _ h0 h

theorem finishTrack_dup_ts {V : Type} (blend : V → V → ℚ → V) (interp : ℤ)
    (ts : List ℤ) (vals : List V) (g : ℤ) (lo hi : ℕ) (tl : ℤ)
    (hhi : ts[hi]? = some tl) (hlo : ts[lo]? = some tl) :
    finishTrack blend interp ts vals g lo hi = exVal vals[lo]? := by
  unfold finishTrack
  by_cases h0 : interp = 0
  · rw [if_pos h0]
  · rw [if_neg h0]
    simp [hhi, hlo]

/-! ## Claim C3 -/

/-- C3: `evaluate_track` returns "no value" (`none`, distinct from a zero
value) iff the track has no keyframe values, the animation index is out of
range for `track.ranges`, the selected range is empty
(`start_index >= end_index`), or `start_index` is at or beyond the end of the
timestamp array; in every other case it returns some value and never raises
an exception (given the data-model invariant
`values.length = timestamps.length`, for every blend function). -/
theorem claim_C3 {V : Type} (blend : V → V → ℚ → V) (track : M2Track V)
    (anim : ℕ) (t : ℤ)
    (hinv : track.values.length = track.timestamps.length) :
    (evaluateTrack blend track anim t = .ok none ↔ noValueCond track anim = true) ∧
    (noValueCond track anim = false →
      ∃ v, evaluateTrack blend track anim t = .ok (some v)) := by
  constructor
  · constructor
    · intro h
      by_contra hc
      have hc' : noValueCond track anim = false := by
        cases hx : noValueCond track anim
        · rfl
        · exact absurd hx hc
      obtain ⟨v, hv⟩ := evaluateTrack_some_of_cond_false blend track anim t hinv hc'
      rw [h] at hv
      simp at hv
    · exact evaluateTrack_none_of_cond blend track anim t
  · exact evaluateTrack_some_of_cond_false blend track anim t hinv

/-- A one-keyframe linear track over `ℚ`: one range `(0, 1)`, timestamp `0`,
value `5`. -/
def demoTrack : M2Track ℚ := ⟨1, [(0, 1)], [0], [5]⟩

/-- First-argument blend, a stand-in interpolation function for witnesses. -/
def blendFst {V : Type} : V → V → ℚ → V := fun a _ _ => a

theorem claim_C3_witness :
    (evaluateTrack blendFst demoTrack 0 3 = .ok none ↔
      noValueCond demoTrack 0 = true) ∧
    (noValueCond demoTrack 0 = false →
      ∃ v, evaluateTrack blendFst demoTrack 0 3 = .ok (some v)) :=
  claim_C3 blendFst demoTrack 0 3 (by decide)

/-! ## Claim C6 -/

/-- C6: for every track with `interp_type = step` (0) the evaluator's output
is bit-identical to one of the stored values (for every blend function — so
no blended value is ever produced); and whenever the two bracketing
timestamps are equal, the final interpolation step returns the earlier
bracketing sample verbatim (`vals[lo]`), with no division by the timestamp
difference. -/
theorem claim_C6 :
    (∀ (V : Type) (blend : V → V → ℚ → V) (track : M2Track V) (anim : ℕ)
        (t : ℤ) (v : V), track.interp_type = 0 →
        evaluateTrack blend track anim t = .ok (some v) → v ∈ track.values) ∧
    (∀ (V : Type) (blend : V → V → ℚ → V) (interp : ℤ) (ts : List ℤ)
        (vals : List V) (g : ℤ) (lo hi : ℕ) (tl : ℤ),
        ts[hi]? = some tl → ts[lo]? = some tl →
        finishTrack blend interp ts vals g lo hi = exVal vals[lo]?) :=
  ⟨fun _ blend track anim t _ h0 h =>
      evaluateTrack_step_mem blend track anim t h0 h,
   fun _ blend interp ts vals g lo hi tl hhi hlo =>
      finishTrack_dup_ts blend interp ts vals g lo hi tl hhi hlo⟩

/-- A two-keyframe step track over `ℚ`. -/
def stepTrack : M2Track ℚ := ⟨0, [(0, 2)], [0, 10], [3, 8]⟩

theorem claim_C6_witness :
    (3 : ℚ) ∈ stepTrack.values ∧
    finishTrack (blendFst (V := ℚ)) 1 [4, 4] [1, 2] 9 0 1 = exVal [(1 : ℚ), 2][0]? :=
  ⟨claim_C6.1 ℚ blendFst stepTrack 0 0 3 rfl rfl,
   claim_C6.2 ℚ blendFst 1 [4, 4] [1, 2] 9 0 1 4 rfl rfl⟩

/-! ## Claim C10 -/

/-- C10: a range whose `end_index` exceeds the timestamp array length but
whose `start_index` passes the start-side checks is not rejected:
`end_index` is silently clamped to the array length, the track evaluates over
the truncated range (same result as a track whose range already ends at the
array length), and the evaluation returns a value without any out-of-bounds
access (no exception). -/
theorem claim_C10 {V : Type} (blend : V → V → ℚ → V) (track track' : M2Track V)
    (anim : ℕ) (t : ℤ) (s e : ℕ)
    (hinv : track.values.length = track.timestamps.length)
    (hr : track.ranges[anim]? = some (s, e))
    (hse : s < e) (hs : s < track.timestamps.length)
    (hbig : track.timestamps.length < e)
    (hit : track'.interp_type = track.interp_type)
    (hts : track'.timestamps = track.timestamps)
    (hvs : track'.values = track.values)
    (hr' : track'.ranges[anim]? = some (s, track.timestamps.length)) :
    (∃ v, evaluateTrack blend track anim t = .ok (some v)) ∧
    evaluateTrack blend track anim t = evaluateTrack blend track' anim t := by
  have hne : track.values.isEmpty = false := by
    rw [List.isEmpty_eq_false]
    intro hnil
    rw [hnil] at hinv
    simp at hinv
    omega
  constructor
  · apply evaluateTrack_some_of_cond_false blend track anim t hinv
    unfold noValueCond
    rw [hr, hne]
    simp
    omega
  · unfold evaluateTrack
    rw [hr, hr', hit, hts, hvs, hne]
    simp only [Bool.false_eq_true, if_false]
    rw [if_neg (by omega : ¬ (s ≥ e ∨ s ≥ track.timestamps.length)),
      if_neg (by omega :
        ¬ (s ≥ track.timestamps.length ∨ s ≥ track.timestamps.length))]
    rw [show min e track.timestamps.length = track.timestamps.length by omega,
      min_self]

/-- A linear track whose only range `(0, 5)` over-runs its two-element
timestamp array. -/
def overTrack : M2Track ℚ := ⟨1, [(0, 5)], [0, 10], [1, 2]⟩

/-- `overTrack` with the range already clamped to `(0, 2)`. -/
def clampedTrack : M2Track ℚ := ⟨1, [(0, 2)], [0, 10], [1, 2]⟩

theorem claim_C10_witness :
    (∃ v, evaluateTrack blendFst overTrack 0 3 = .ok (some v)) ∧
    evaluateTrack blendFst overTrack 0 3 = evaluateTrack blendFst clampedTrack 0 3 :=
  claim_C10 blendFst overTrack clampedTrack 0 3 0 5 rfl rfl
    (by decide) (by decide) (by decide) rfl rfl rfl rfl

/-! ## Bones and `evaluate_bone_transform` (lines 359–392) -/

/-- A skeleton bone as consumed by `evaluate_bone_transform`: parent index
(`-1` for roots), rest-pose pivot, and the three animation tracks.  (The
source's `key_bone_id`, `flags` and `submesh_id` fields are never read by the
functions under verification and are omitted.) -/
structure Bone where
  parent : ℤ
  pivot : Vec3
  translation : M2Track Vec3
  rotation : M2Track Quat
  scale : M2Track Vec3

/-- Python list indexing `l[i]`: non-negative indexes are direct, indexes in
`[-len, 0)` wrap around from the end, anything else is an `IndexError`
(`none`). -/
def pyIndex {α : Type} (l : List α) (i : ℤ) : Option α :=
  if 0 ≤ i then l[i.toNat]?
  else if -(l.length : ℤ) ≤ i then l[((l.length : ℤ) + i).toNat]?
  else none

theorem pyIndex_natCast {α : Type} (l : List α) (i : ℕ) (h : i < l.length) :
    pyIndex l (i : ℤ) = some l[i] := by
  unfold pyIndex
  rw [if_pos (by omega : (0 : ℤ) ≤ (i : ℤ))]
  rw [show ((i : ℤ)).toNat = i by omega]
  exact List.getElem?_eq_getElem h

theorem pyIndex_none_of_ge {α : Type} (l : List α) (i : ℤ)
    (h : (l.length : ℤ) ≤ i) : pyIndex l i = none := by
  unfold pyIndex
  rw [if_pos (by omega : (0 : ℤ) ≤ i)]
  exact List.getElem?_eq_none (by omega)

/-- A call `evaluate_track(...)` made from `evaluate_bone_transform`:
`none` if the call raised, otherwise `some` of the Python return value. -/
def trackValue? {V : Type} (blend : V → V → ℚ → V) (track : M2Track V)
    (anim : ℕ) (t : ℤ) : Option (Option V) :=
  match evaluateTrack blend track anim t with
  | .error _ => none
  | .ok v => some v

/-- numpy slice assignment `m[:3, 3] = v` (rows 0–2 of the last column). -/
def setTransCol (m : Mat4) (v : Vec3) : Mat4 := fun i j =>
  if h : i.val < 3 then (if j = 3 then v ⟨i.val, h⟩ else m i j) else m i j

/-- The assignments `m[0,0] = s[0]; m[1,1] = s[1]; m[2,2] = s[2]`. -/
def setDiag3 (m : Mat4) (v : Vec3) : Mat4 := fun i j =>
  if h : i.val < 3 then (if i = j then v ⟨i.val, h⟩ else m i j) else m i j

/-- numpy slice assignment `m[:3, :3] = r`. -/
def setUpper3 (m : Mat4) (r : Fin 3 → Fin 3 → ℚ) : Mat4 := fun i j =>
  if hi : i.val < 3 then
    (if hj : j.val < 3 then r ⟨i.val, hi⟩ ⟨j.val, hj⟩ else m i j)
  else m i j

/-- Lines 370–383: the local transform exactly as the source builds it,
`t_pivot @ t_trans @ r_mat @ s_mat @ t_neg_pivot` (numpy `@` associates to
the left), each factor `np.eye(4)` patched in place, with a `None` track
result leaving the factor as the identity. -/
def localOf (bone : Bone) (trans : Option Vec3) (rot : Option Quat)
    (scl : Option Vec3) : Mat4 :=
  mmul (mmul (mmul (mmul (setTransCol eyeM bone.pivot)
    (match trans with | some v => setTransCol eyeM v | none => eyeM))
    (match rot with | some q => setUpper3 eyeM (quatToMatrix q) | none => eyeM))
    (match scl with | some s => setDiag3 eyeM s | none => eyeM))
    (setTransCol eyeM (negV bone.pivot))

/-- `evaluate_bone_transform` (lines 359–392) without the optional
memoization cache (the cache only avoids recomputation).  `fuel` bounds the
recursion depth: exhausting it models Python's unbounded recursion /
`RecursionError` on a parent cycle, and `none` also covers a raised
`IndexError` from `bones[bone_index]` or from the track evaluator. -/
def evalBoneTransform (qB : Quat → Quat → ℚ → Quat)
    (vB : Vec3 → Vec3 → ℚ → Vec3) (bones : List Bone) :
    ℕ → ℤ → ℕ → ℤ → Option Mat4
  | 0, _, _, _ => none
  | fuel + 1, boneIndex, animIndex, timeMs =>
    match pyIndex bones boneIndex with
    | none => none
    | some bone =>
      match trackValue? vB bone.translation animIndex timeMs,
            trackValue? qB bone.rotation animIndex timeMs,
            trackValue? vB bone.scale animIndex timeMs with
      | some tv, some rv, some sv =>
        if 0 ≤ bone.parent then
          match evalBoneTransform qB vB bones fuel bone.parent animIndex timeMs with
          | none => none
          | some parentMat => some (mmul parentMat (localOf bone tv rv sv))
        else some (localOf bone tv rv sv)
      | _, _, _ => none

/-- The specification's `Translate(v)` 4×4 matrix. -/
def translateMat (v : Vec3) : Mat4 := fun i j =>
  if h : i.val < 3 then (if j = 3 then v ⟨i.val, h⟩ else if i = j then 1 else 0)
  else (if j = 3 then 1 else 0)

/-- The specification's `Scale(v)` 4×4 matrix. -/
def scaleMat (v : Vec3) : Mat4 := fun i j =>
  if i = j then (if h : i.val < 3 then v ⟨i.val, h⟩ else 1) else 0

/-- The specification's `Rotate(q)` 4×4 matrix (rotation block from the
source's quaternion-to-matrix conversion). -/
def rotMat (q : Quat) : Mat4 := fun i j =>
  if hi : i.val < 3 then
    (if hj : j.val < 3 then quatToMatrix q ⟨i.val, hi⟩ ⟨j.val, hj⟩ else 0)
  else (if j = 3 then 1 else 0)

/-- The specification's local transform
`Translate(pivot) ⬝ Translate(trackTranslation) ⬝ Rotate(trackRotation) ⬝
Scale(trackScale) ⬝ Translate(−pivot)`, a missing track value defaulting to
the identity of its sub-transform. -/
def specLocal (bone : Bone) (trans : Option Vec3) (rot : Option Quat)
    (scl : Option Vec3) : Mat4 :=
  mmul (translateMat bone.pivot) (mmul (translateMat (trans.getD zeroV))
    (mmul (rotMat (rot.getD idQuat)) (mmul (scaleMat (scl.getD oneV))
      (translateMat (negV bone.pivot)))))

theorem mmul5_assoc (A B C D E : Mat4) :
    mmul (mmul (mmul (mmul A B) C) D) E =
      mmul A (mmul B (mmul C (mmul D E))) := by
  rw [mmul_assoc, mmul_assoc, mmul_assoc]

theorem setTransCol_eye (v : Vec3) : setTransCol eyeM v = translateMat v := by
  funext i j
  fin_cases i <;> fin_cases j <;> simp [setTransCol, translateMat, eyeM]

theorem setDiag3_eye (v : Vec3) : setDiag3 eyeM v = scaleMat v := by
  funext i j
  fin_cases i <;> fin_cases j <;> simp [setDiag3, scaleMat, eyeM]

theorem setUpper3_eye (q : Quat) :
    setUpper3 eyeM (quatToMatrix q) = rotMat q := by
  funext i j
  fin_cases i <;> fin_cases j <;> simp [setUpper3, rotMat, eyeM]

theorem translateMat_zero : translateMat zeroV = eyeM := by
  funext i j
  fin_cases i <;> fin_cases j <;>
    simp [translateMat, zeroV, eyeM, Matrix.vecHead, Matrix.vecTail]

theorem scaleMat_one : scaleMat oneV = eyeM := by
  funext i j
  fin_cases i <;> fin_cases j <;>
    simp [scaleMat, oneV, eyeM, Matrix.vecHead, Matrix.vecTail]

theorem rotMat_id : rotMat idQuat = eyeM := by
  funext i j
  fin_cases i <;> fin_cases j <;>
    simp [rotMat, quatToMatrix, idQuat, eyeM, Matrix.vecHead, Matrix.vecTail]

theorem localOf_eq (bone : Bone) (trans : Option Vec3) (rot : Option Quat)
    (scl : Option Vec3) : localOf bone trans rot scl = specLocal bone trans rot scl := by
  have hT : (match trans with | some v => setTransCol eyeM v | none => eyeM) =
      translateMat (trans.getD zeroV) := by
    cases trans
    · simpa using translateMat_zero.symm
    · simp [setTransCol_eye]
  have hR : (match rot with | some q => setUpper3 eyeM (quatToMatrix q) | none => eyeM) =
      rotMat (rot.getD idQuat) := by
    cases rot
    · simpa using rotMat_id.symm
    · simp [setUpper3_eye]
  have hS : (match scl with | some s => setDiag3 eyeM s | none => eyeM) =
      scaleMat (scl.getD oneV) := by
    cases scl
    · simpa using scaleMat_one.symm
    · simp [setDiag3_eye]
  unfold localOf specLocal
  rw [hT, hR, hS, setTransCol_eye, setTransCol_eye, mmul5_assoc]

/-! ## Claim C1 -/

/-- C1: for every bone (with the three track evaluations returning without an
exception), the local transform computed by `evaluate_bone_transform` equals
`Translate(pivot) ⬝ Translate(trackTranslation) ⬝ Rotate(trackRotation) ⬝
Scale(trackScale) ⬝ Translate(−pivot)` with a missing track value
contributing the identity sub-transform, and the world transform is
`parent_world ⬝ local` when `parent ≥ 0` and `local` otherwise. -/
theorem claim_C1 (qB : Quat → Quat → ℚ → Quat) (vB : Vec3 → Vec3 → ℚ → Vec3)
    (bones : List Bone) (i : ℕ) (hi : i < bones.length) (fuel : ℕ) (anim : ℕ)
    (t : ℤ) (trans : Option Vec3) (rot : Option Quat) (scl : Option Vec3)
    (ht : evaluateTrack vB bones[i].translation anim t = .ok trans)
    (hr : evaluateTrack qB bones[i].rotation anim t = .ok rot)
    (hs : evaluateTrack vB bones[i].scale anim t = .ok scl) :
    evalBoneTransform qB vB bones (fuel + 1) (i : ℤ) anim t =
      if 0 ≤ bones[i].parent then
        (evalBoneTransform qB vB bones fuel bones[i].parent anim t).map
          (fun p => mmul p (specLocal bones[i] trans rot scl))
      else some (specLocal bones[i] trans rot scl) := by
  rw [show evalBoneTransform qB vB bones (fuel + 1) (i : ℤ) anim t =
      match pyIndex bones (i : ℤ) with
      | none => none
      | some bone =>
        match trackValue? vB bone.translation anim t,
              trackValue? qB bone.rotation anim t,
              trackValue? vB bone.scale anim t with
        | some tv, some rv, some sv =>
          if 0 ≤ bone.parent then
            match evalBoneTransform qB vB bones fuel bone.parent anim t with
            | none => none
            | some parentMat => some (mmul parentMat (localOf bone tv rv sv))
          else some (localOf bone tv rv sv)
        | _, _, _ => none
    from rfl]
  rw [pyIndex_natCast bones i hi]
  simp only [trackValue?, ht, hr, hs]
  rw [localOf_eq]
  by_cases hp : 0 ≤ bones[i].parent
  · rw [if_pos hp, if_pos hp]
    cases evalBoneTransform qB vB bones fuel bones[i].parent anim t <;>
      simp [Option.map]
  · rw [if_neg hp, if_neg hp]

/-- A track with no keyframes at all (`ranges`, `timestamps`, `values` all
empty), as produced by the loader for unanimated bones. -/
def emptyTrackV : M2Track Vec3 := ⟨0, [], [], []⟩

/-- A quaternion track with no keyframes. -/
def emptyTrackQ : M2Track Quat := ⟨0, [], [], []⟩

/-- A root bone (`parent = -1`) with pivot at the origin and empty tracks. -/
def rootBone : Bone := ⟨-1, zeroV, emptyTrackV, emptyTrackQ, emptyTrackV⟩

theorem claim_C1_witness :
    evalBoneTransform (blendFst (V := Quat)) (blendFst (V := Vec3))
        [rootBone] (0 + 1) ((0 : ℕ) : ℤ) 0 0 =
      if 0 ≤ rootBone.parent then
        (evalBoneTransform blendFst blendFst [rootBone] 0
            rootBone.parent 0 0).map
          (fun p => mmul p (specLocal rootBone none none none))
      else some (specLocal rootBone none none none) :=
  claim_C1 blendFst blendFst [rootBone] 0 (by decide) 0 0 0 none none none
    rfl rfl rfl

/-! ## Claim C2 -/

theorem evalBoneTransform_succ (qB : Quat → Quat → ℚ → Quat)
    (vB : Vec3 → Vec3 → ℚ → Vec3) (bones : List Bone) (fuel : ℕ) (bi : ℤ)
    (anim : ℕ) (t : ℤ) :
    evalBoneTransform qB vB bones (fuel + 1) bi anim t =
      match pyIndex bones bi with
      | none => none
      | some bone =>
        match trackValue? vB bone.translation anim t,
              trackValue? qB bone.rotation anim t,
              trackValue? vB bone.scale anim t with
        | some tv, some rv, some sv =>
          if 0 ≤ bone.parent then
            match evalBoneTransform qB vB bones fuel bone.parent anim t with
            | none => none
            | some parentMat => some (mmul parentMat (localOf bone tv rv sv))
          else some (localOf bone tv rv sv)
        | _, _, _ => none := rfl

/-- The data-model invariant `values.len == timestamps.len` for the three
tracks of a bone. -/
def boneTracksWF (b : Bone) : Prop :=
  b.translation.values.length = b.translation.timestamps.length ∧
  b.rotation.values.length = b.rotation.timestamps.length ∧
  b.scale.values.length = b.scale.timestamps.length

theorem trackValue?_some {V : Type} (blend : V → V → ℚ → V) (track : M2Track V)
    (anim : ℕ) (t : ℤ) (hinv : track.values.length = track.timestamps.length) :
    ∃ o, trackValue? blend track anim t = some o := by
  unfold trackValue?
  cases hc : noValueCond track anim
  · obtain ⟨v, hv⟩ := evaluateTrack_some_of_cond_false blend track anim t hinv hc
    rw [hv]
    exact ⟨some v, rfl⟩
  · rw [evaluateTrack_none_of_cond blend track anim t hc]
    exact ⟨none, rfl⟩

theorem evalBoneTransform_total (qB : Quat → Quat → ℚ → Quat)
    (vB : Vec3 → Vec3 → ℚ → Vec3) (bones : List Bone)
    (hwf : ∀ j (hj : j < bones.length),
      boneTracksWF bones[j] ∧ bones[j].parent < (j : ℤ)) :
    ∀ i fuel anim t, i < bones.length → i < fuel →
      ∃ M, evalBoneTransform qB vB bones fuel (i : ℤ) anim t = some M := by
  intro i
  induction i using Nat.strong_induction_on with
  | _ i ih =>
    intro fuel anim t hi hfuel
    obtain ⟨f, rfl⟩ : ∃ f, fuel = f + 1 := ⟨fuel - 1, by omega⟩
    obtain ⟨hw, hp⟩ := hwf i hi
    obtain ⟨tv, htv⟩ := trackValue?_some vB bones[i].translation anim t hw.1
    obtain ⟨rv, hrv⟩ := trackValue?_some qB bones[i].rotation anim t hw.2.1
    obtain ⟨sv, hsv⟩ := trackValue?_some vB bones[i].scale anim t hw.2.2
    rw [evalBoneTransform_succ, pyIndex_natCast bones i hi]
    simp only [htv, hrv, hsv]
    by_cases hpar : 0 ≤ bones[i].parent
    · rw [if_pos hpar]
      obtain ⟨M, hM⟩ := ih bones[i].parent.toNat (by omega) f anim t
        (by omega) (by omega)
      rw [show ((bones[i].parent.toNat : ℕ) : ℤ) = bones[i].parent by omega] at hM
      rw [hM]
      exact ⟨_, rfl⟩
    · rw [if_neg hpar]
      exact ⟨_, rfl⟩

theorem evalBoneTransform_oob (qB : Quat → Quat → ℚ → Quat)
    (vB : Vec3 → Vec3 → ℚ → Vec3) (bones : List Bone) (i : ℤ) (anim : ℕ)
    (t : ℤ) (h : (bones.length : ℤ) ≤ i) :
    ∀ fuel, evalBoneTransform qB vB bones fuel i anim t = none := by
  intro fuel
  cases fuel with
  | zero => rfl
  | succ f => rw [evalBoneTransform_succ, pyIndex_none_of_ge bones i h]

/-- A bone that is its own parent: a one-bone parent cycle. -/
def cycleBone : Bone := ⟨0, zeroV, emptyTrackV, emptyTrackQ, emptyTrackV⟩

theorem evalBoneTransform_cycle (qB : Quat → Quat → ℚ → Quat)
    (vB : Vec3 → Vec3 → ℚ → Vec3) (anim : ℕ) (t : ℤ) :
    ∀ fuel, evalBoneTransform qB vB [cycleBone] fuel 0 anim t = none := by
  intro fuel
  induction fuel with
  | zero => rfl
  | succ f ih =>
    rw [evalBoneTransform_succ]
    simp only [show pyIndex [cycleBone] (0 : ℤ) = some cycleBone from rfl,
      show trackValue? vB cycleBone.translation anim t = some none from rfl,
      show trackValue? qB cycleBone.rotation anim t = some none from rfl,
      show trackValue? vB cycleBone.scale anim t = some none from rfl,
      if_pos (by decide : (0 : ℤ) ≤ cycleBone.parent),
      show cycleBone.parent = (0 : ℤ) from rfl, ih]
    simp

/-- C2 (amended): `evaluate_bone_transform` performs no malformed-input
detection.  For well-formed input — every bone's parent index strictly below
its own index and tracks satisfying the length invariant — it returns a
matrix (given enough recursion depth).  A non-negative bone index outside the
table raises an `IndexError` (modelled `none`), an exception rather than an
error value returned to the caller, and a parent cycle recurses without
bound (no result at any recursion depth, a `RecursionError` in Python);
moreover a negative malformed index is not detected at all but wraps around
Python-style (see the counterexample). -/
theorem claim_C2 :
    (∀ (qB : Quat → Quat → ℚ → Quat) (vB : Vec3 → Vec3 → ℚ → Vec3)
        (bones : List Bone) (i fuel anim : ℕ) (t : ℤ),
        (∀ j (hj : j < bones.length),
          boneTracksWF bones[j] ∧ bones[j].parent < (j : ℤ)) →
        i < bones.length → i < fuel →
        ∃ M, evalBoneTransform qB vB bones fuel (i : ℤ) anim t = some M) ∧
    (∀ (qB : Quat → Quat → ℚ → Quat) (vB : Vec3 → Vec3 → ℚ → Vec3)
        (bones : List Bone) (i : ℤ) (fuel anim : ℕ) (t : ℤ),
        (bones.length : ℤ) ≤ i →
        evalBoneTransform qB vB bones fuel i anim t = none) ∧
    (∀ (qB : Quat → Quat → ℚ → Quat) (vB : Vec3 → Vec3 → ℚ → Vec3)
        (fuel anim : ℕ) (t : ℤ),
        evalBoneTransform qB vB [cycleBone] fuel 0 anim t = none) :=
  ⟨fun qB vB bones i fuel anim t hwf hi hf =>
      evalBoneTransform_total qB vB bones hwf i fuel anim t hi hf,
   fun qB vB bones i fuel anim t h =>
      evalBoneTransform_oob qB vB bones i anim t h fuel,
   fun qB vB fuel anim t => evalBoneTransform_cycle qB vB anim t fuel⟩

theorem negV_zero : negV zeroV = zeroV := by
  funext i
  simp [negV, zeroV]

/-- C2 counterexample: the bone index `-1` is outside the one-entry bone
table, a malformed input on which the claim requires an error return; the
source instead wraps around to the last bone and successfully returns a
matrix (here the identity). -/
theorem claim_C2_counterexample :
    evalBoneTransform (blendFst (V := Quat)) (blendFst (V := Vec3))
      [rootBone] 2 (-1) 0 0 = some eyeM := by
  have h1 : evalBoneTransform (blendFst (V := Quat)) (blendFst (V := Vec3))
      [rootBone] 2 (-1) 0 0 = some (localOf rootBone none none none) := rfl
  rw [h1, localOf_eq]
  unfold specLocal
  rw [show rootBone.pivot = zeroV from rfl, negV_zero, translateMat_zero]
  simp only [Option.getD_none]
  rw [translateMat_zero, rotMat_id, scaleMat_one, eye_mmul, eye_mmul, eye_mmul,
    eye_mmul]

theorem claim_C2_witness :
    (∃ M, evalBoneTransform (blendFst (V := Quat)) (blendFst (V := Vec3))
        [rootBone] 1 ((0 : ℕ) : ℤ) 0 0 = some M) ∧
    evalBoneTransform (blendFst (V := Quat)) (blendFst (V := Vec3))
        [rootBone] 3 ((2 : ℕ) : ℤ) 0 0 = none ∧
    evalBoneTransform (blendFst (V := Quat)) (blendFst (V := Vec3))
        [cycleBone] 7 0 0 0 = none :=
  ⟨claim_C2.1 blendFst blendFst [rootBone] 0 1 0 0
      (by
        intro j hj
        have hj0 : j = 0 := by
          simp only [List.length_singleton] at hj
          omega
        subst hj0
        exact ⟨⟨rfl, rfl, rfl⟩, show rootBone.parent < ((0 : ℕ) : ℤ) by decide⟩)
      (by decide) (by decide),
   claim_C2.2.1 blendFst blendFst [rootBone] 2 3 0 0 (by decide),
   claim_C2.2.2 blendFst blendFst 7 0 0⟩

/-! ## Vertices and `compute_deformed_positions` (lines 395–422) -/

/-- A mesh vertex as consumed by the deformer: rest-pose position and the
four weight/index slots (`4B4B` in the vertex record, so weights and bone
indexes are unsigned bytes).  Normals and UVs are never read by the deformer
and are omitted. -/
structure Vertex where
  pos : Vec3
  boneWeights : Fin 4 → ℕ
  boneIndices : Fin 4 → ℕ

/-- `(bone_matrices[bi] @ np.array([x, y, z, 1.0]))[:3]`: the first three
components of a 4×4 matrix applied to the homogeneous position. -/
def applyHom (M : Mat4) (p : Vec3) : Vec3 := fun i =>
  M i.castSucc 0 * p 0 + M i.castSucc 1 * p 1 + M i.castSucc 2 * p 2 +
    M i.castSucc 3

/-- One iteration of the `for j in range(4)` slot loop (lines 413–420):
skip a zero weight, skip an out-of-range bone index, otherwise accumulate
`(w / 255.0) * (bone_matrices[bi] @ pos)[:3]`. -/
def deformStep (mats : List Mat4) (v : Vertex) (acc : Vec3) (j : Fin 4) : Vec3 :=
  if v.boneWeights j = 0 then acc
  else if h : v.boneIndices j < mats.length then
    acc + ((v.boneWeights j : ℚ) / 255) • applyHom mats[v.boneIndices j] v.pos
  else acc

/-- The per-vertex body of `compute_deformed_positions` (lines 409–421):
accumulate the four slots starting from `np.zeros(3)`. -/
def deformVertex (mats : List Mat4) (v : Vertex) : Vec3 :=
  (List.finRange 4).foldl (deformStep mats v) zeroV

/-- The vertex loop of `compute_deformed_positions`: one output position per
vertex, in order. -/
def deform (mats : List Mat4) (vertices : List Vertex) : List Vec3 :=
  vertices.map (deformVertex mats)

/-- `compute_deformed_positions` (lines 395–422): evaluate a world matrix for
every bone (propagating a raised exception / non-termination as `none`), then
deform every vertex.  The per-call `cache` only memoizes and is dropped; the
`anim_duration` argument is never read by `evaluate_track`. -/
def computeDeformedPositions (qB : Quat → Quat → ℚ → Quat)
    (vB : Vec3 → Vec3 → ℚ → Vec3) (bones : List Bone) (vertices : List Vertex)
    (anim : ℕ) (t : ℤ) (fuel : ℕ) : Option (List Vec3) :=
  ((List.range bones.length).mapM
    (fun bi => evalBoneTransform qB vB bones fuel (bi : ℤ) anim t)).map
    (fun mats => deform mats vertices)

theorem deformStep_eq (mats : List Mat4) (v : Vertex) (acc : Vec3) (j : Fin 4) :
    deformStep mats v acc j = acc +
      (if v.boneWeights j ≠ 0 ∧ v.boneIndices j < mats.length
       then ((v.boneWeights j : ℚ) / 255) •
         applyHom (mats.getD (v.boneIndices j) eyeM) v.pos
       else 0) := by
  unfold deformStep
  by_cases hw : v.boneWeights j = 0
  · rw [if_pos hw, if_neg (by simp [hw]), add_zero]
  · rw [if_neg hw]
    by_cases hb : v.boneIndices j < mats.length
    · rw [dif_pos hb, if_pos ⟨hw, hb⟩, List.getD_eq_getElem mats eyeM hb]
    · rw [dif_neg hb, if_neg (by simp [hb]), add_zero]

theorem deformVertex_eq_sum (mats : List Mat4) (v : Vertex) :
    deformVertex mats v =
      ∑ j ∈ Finset.univ.filter
        (fun j => v.boneWeights j ≠ 0 ∧ v.boneIndices j < mats.length),
        ((v.boneWeights j : ℚ) / 255) •
          applyHom (mats.getD (v.boneIndices j) eyeM) v.pos := by
  have h4 : List.finRange 4 = [0, 1, 2, 3] := by decide
  unfold deformVertex
  rw [h4]
  simp only [List.foldl_cons, List.foldl_nil, deformStep_eq]
  rw [Finset.sum_filter, Fin.sum_univ_four, show zeroV = (0 : Vec3) from rfl]
  abel

/-! ## Claim C4 -/

/-- C4: each vertex's output is the sum, over exactly those of its 4 slots
with nonzero weight AND in-range bone index, of `(weight/255)` times the
slot's bone matrix applied to the homogeneous rest position; a zero-weight
slot's bone index is never dereferenced and an out-of-range slot contributes
nothing; and each vertex's output depends only on that vertex (the loop is a
per-index map), so a malformed slot cannot fail another vertex. -/
theorem claim_C4 :
    (∀ (mats : List Mat4) (vertices : List Vertex) (i : ℕ),
      (deform mats vertices)[i]? = (vertices[i]?).map (deformVertex mats)) ∧
    (∀ (mats : List Mat4) (v : Vertex),
      deformVertex mats v =
        ∑ j ∈ Finset.univ.filter
          (fun j => v.boneWeights j ≠ 0 ∧ v.boneIndices j < mats.length),
          ((v.boneWeights j : ℚ) / 255) •
            applyHom (mats.getD (v.boneIndices j) eyeM) v.pos) :=
  ⟨fun mats vertices i => List.getElem?_map (deformVertex mats) vertices i,
   fun mats v => deformVertex_eq_sum mats v⟩

/-! ## Claim C5 -/

theorem applyHom_eye (p : Vec3) : applyHom eyeM p = p := by
  funext i
  fin_cases i <;> simp [applyHom, eyeM, Fin.ext_iff] <;> decide

/-- C5: `deform` is weight-conservative — if a vertex's weights sum to 255
and every nonzero-weight slot references an identity matrix, the output
equals the rest-pose position exactly, however the weight is distributed. -/
theorem claim_C5 (mats : List Mat4) (v : Vertex)
    (hsum : ∑ j : Fin 4, v.boneWeights j = 255)
    (hid : ∀ j : Fin 4, v.boneWeights j ≠ 0 →
      v.boneIndices j < mats.length ∧ mats.getD (v.boneIndices j) eyeM = eyeM) :
    deformVertex mats v = v.pos := by
  rw [deformVertex_eq_sum]
  have hterm : ∀ j : Fin 4,
      (if v.boneWeights j ≠ 0 ∧ v.boneIndices j < mats.length
       then ((v.boneWeights j : ℚ) / 255) •
         applyHom (mats.getD (v.boneIndices j) eyeM) v.pos
       else 0) = ((v.boneWeights j : ℚ) / 255) • v.pos := by
    intro j
    by_cases hw : v.boneWeights j = 0
    · simp [hw]
    · rw [if_pos ⟨hw, (hid j hw).1⟩, (hid j hw).2, applyHom_eye]
  rw [Finset.sum_filter]
  simp only [hterm]
  have hq : (∑ j : Fin 4, ((v.boneWeights j : ℚ) / 255)) = 1 := by
    rw [← Finset.sum_div]
    rw [show (∑ j : Fin 4, ((v.boneWeights j : ℚ))) =
        ((∑ j : Fin 4, v.boneWeights j : ℕ) : ℚ) by push_cast; rfl]
    rw [hsum]
    norm_num
  rw [← Finset.sum_smul, hq, one_smul]

/-- A fully-weighted vertex: weight 255 split 100/155 over two slots that
both reference bone 0; the two zero-weight slots carry stale indexes 7, 9. -/
def demoVertex : Vertex := ⟨![1, 2, 3], ![100, 155, 0, 0], ![0, 0, 7, 9]⟩

theorem claim_C5_witness : deformVertex [eyeM] demoVertex = demoVertex.pos :=
  claim_C5 [eyeM] demoVertex (by decide)
    (by
      intro j hw
      fin_cases j
      · exact ⟨by decide, rfl⟩
      · exact ⟨by decide, rfl⟩
      · exact absurd rfl hw
      · exact absurd rfl hw)

/-! ## Claim C9 -/

/-- C9: a vertex all of whose slots are zero-weight, or whose nonzero slots
all carry out-of-range bone indexes, is output as the origin `(0,0,0)` (the
accumulator's initial value), not as its rest-pose position. -/
theorem claim_C9 (mats : List Mat4) (v : Vertex)
    (h : ∀ j : Fin 4, v.boneWeights j = 0 ∨ mats.length ≤ v.boneIndices j) :
    deformVertex mats v = zeroV := by
  rw [deformVertex_eq_sum, show zeroV = (0 : Vec3) from rfl]
  apply Finset.sum_eq_zero
  intro j hj
  simp only [Finset.mem_filter] at hj
  rcases h j with h0 | h0
  · exact absurd h0 hj.2.1
  · exact absurd hj.2.2 (by omega)

/-- A vertex with one nonzero weight whose bone index 5 is out of range for a
single-matrix array, the other three slots zero-weight. -/
def strayVertex : Vertex := ⟨![1, 2, 3], ![255, 0, 0, 0], ![5, 0, 0, 0]⟩

theorem claim_C9_witness : deformVertex [eyeM] strayVertex = zeroV :=
  claim_C9 [eyeM] strayVertex (by
    intro j
    fin_cases j
    · exact Or.inr (by decide)
    · exact Or.inl rfl
    · exact Or.inl rfl
    · exact Or.inl rfl)

/-! ## Texture resolution: Python strings, sorting, dictionaries -/

/-- A Python `str` as its sequence of code points. -/
abbrev PyStr := List Char

/-- `str.lower()` (the names compared by the source are ASCII, where
`Char.toLower` agrees with Python). -/
def lowerS (s : PyStr) : PyStr := s.map Char.toLower

/-- A directory entry as `pathlib` exposes it: `stem` (name without the last
extension) and `suffix` (the extension, with its dot). -/
structure DirFile where
  stem : PyStr
  ext : PyStr
deriving DecidableEq

/-- `Path.name`: stem plus extension. -/
def fullName (f : DirFile) : PyStr := f.stem ++ f.ext

/-- Python string `<=`: lexicographic on code points. -/
def strLe : PyStr → PyStr → Bool
  | [], _ => true
  | _ :: _, [] => false
  | a :: as, b :: bs =>
    if a.toNat < b.toNat then true
    else if b.toNat < a.toNat then false
    else strLe as bs

theorem strLe_refl (s : PyStr) : strLe s s = true := by
  induction s with
  | nil => rfl
  | cons a as ih => simp [strLe, ih]

theorem strLe_total (a b : PyStr) : strLe a b = true ∨ strLe b a = true := by
  induction a generalizing b with
  | nil => left; rfl
  | cons x xs ih =>
    cases b with
    | nil => right; rfl
    | cons y ys =>
      by_cases h1 : x.toNat < y.toNat
      · left; simp [strLe, h1]
      · by_cases h2 : y.toNat < x.toNat
        · right; simp [strLe, h2]
        · rcases ih ys with h | h
          · left; simp [strLe, h1, h2, h]
          · right; simp [strLe, h1, h2, h]

theorem strLe_trans (a b c : PyStr) (hab : strLe a b = true)
    (hbc : strLe b c = true) : strLe a c = true := by
  induction a generalizing b c with
  | nil => rfl
  | cons x xs ih =>
    cases b with
    | nil => simp [strLe] at hab
    | cons y ys =>
      cases c with
      | nil => simp [strLe] at hbc
      | cons z zs =>
        simp only [strLe] at hab hbc ⊢
        by_cases h1 : x.toNat < y.toNat
        · by_cases h2 : y.toNat < z.toNat
          · simp [show x.toNat < z.toNat by omega]
          · by_cases h2b : z.toNat < y.toNat
            · simp [h2, h2b] at hbc
            · simp [show x.toNat < z.toNat by omega]
        · by_cases h1b : y.toNat < x.toNat
          · simp [h1, h1b] at hab
          · by_cases h2 : y.toNat < z.toNat
            · simp [show x.toNat < z.toNat by omega]
            · by_cases h2b : z.toNat < y.toNat
              · simp [h2, h2b] at hbc
              · simp only [if_neg h1, if_neg h1b] at hab
                simp only [if_neg h2, if_neg h2b] at hbc
                simp only [if_neg (show ¬ x.toNat < z.toNat by omega),
                  if_neg (show ¬ z.toNat < x.toNat by omega)]
                exact ih ys zs hab hbc

/-- One insertion step of Python's stable `sorted` (insertion sort is an
adequate model: same multiset, sorted by `le`, stable). -/
def insertBy {α : Type} (le : α → α → Bool) (a : α) : List α → List α
  | [] => [a]
  | b :: l => if le a b then a :: b :: l else b :: insertBy le a l

/-- `sorted(l, key/cmp = le)`. -/
def sortBy {α : Type} (le : α → α → Bool) (l : List α) : List α :=
  l.foldr (insertBy le) []

theorem insertBy_mem {α : Type} (le : α → α → Bool) (x : α) (l : List α)
    (a : α) : a ∈ insertBy le x l ↔ a = x ∨ a ∈ l := by
  induction l with
  | nil => simp [insertBy]
  | cons b bs ih =>
    unfold insertBy
    by_cases h : le x b = true
    · simp [h]
    · simp only [if_neg h, List.mem_cons, ih]
      tauto

theorem sortBy_mem {α : Type} (le : α → α → Bool) (l : List α) (a : α) :
    a ∈ sortBy le l ↔ a ∈ l := by
  induction l with
  | nil => simp [sortBy]
  | cons b bs ih =>
    unfold sortBy at ih ⊢
    rw [List.foldr_cons, insertBy_mem, ih, List.mem_cons]

theorem insertBy_pairwise {α : Type} (le : α → α → Bool)
    (htot : ∀ a b, le a b = true ∨ le b a = true)
    (htrans : ∀ a b c, le a b = true → le b c = true → le a c = true)
    (x : α) (l : List α) (hl : l.Pairwise (fun a b => le a b = true)) :
    (insertBy le x l).Pairwise (fun a b => le a b = true) := by
  induction l with
  | nil => simp [insertBy]
  | cons b bs ih =>
    rw [List.pairwise_cons] at hl
    unfold insertBy
    by_cases h : le x b = true
    · rw [if_pos h, List.pairwise_cons]
      constructor
      · intro a ha
        rcases List.mem_cons.mp ha with rfl | ha
        · exact h
        · exact htrans x b a h (hl.1 a ha)
      · rw [List.pairwise_cons]
        exact hl
    · rw [if_neg h, List.pairwise_cons]
      constructor
      · intro a ha
        rcases (insertBy_mem le x bs a).mp ha with rfl | ha
        · rcases htot a b with h2 | h2
          · exact absurd h2 h
          · exact h2
        · exact hl.1 a ha
      · exact ih hl.2

theorem sortBy_pairwise {α : Type} (le : α → α → Bool)
    (htot : ∀ a b, le a b = true ∨ le b a = true)
    (htrans : ∀ a b c, le a b = true → le b c = true → le a c = true)
    (l : List α) : (sortBy le l).Pairwise (fun a b => le a b = true) := by
  induction l with
  | nil => simp [sortBy]
  | cons b bs ih => exact insertBy_pairwise le htot htrans b (sortBy le bs) ih

theorem sortBy_head_greatest {α : Type} (le : α → α → Bool)
    (htot : ∀ a b, le a b = true ∨ le b a = true)
    (htrans : ∀ a b c, le a b = true → le b c = true → le a c = true)
    (l : List α) (k : α) (rest : List α) (h : sortBy le l = k :: rest) :
    k ∈ l ∧ ∀ x ∈ l, le k x = true := by
  have hp := sortBy_pairwise le htot htrans l
  rw [h, List.pairwise_cons] at hp
  constructor
  · exact (sortBy_mem le l k).mp (by rw [h]; exact List.mem_cons_self k rest)
  · intro x hx
    have : x ∈ k :: rest := by rw [← h, sortBy_mem]; exact hx
    rcases List.mem_cons.mp this with rfl | hxr
    · rcases htot x x with h2 | h2 <;> exact h2
    · exact hp.1 x hxr

/-- Python `dict` assignment `d[k] = v`: overwrite in place if the key is
present, else append (insertion order preserved). -/
def dinsert (k : PyStr) (v : DirFile) :
    List (PyStr × DirFile) → List (PyStr × DirFile)
  | [] => [(k, v)]
  | (k2, v2) :: rest =>
    if k2 = k then (k, v) :: rest else (k2, v2) :: dinsert k v rest

/-- Python `d[k]` / `k in d`. -/
def dfind (k : PyStr) (d : List (PyStr × DirFile)) : Option DirFile :=
  (d.find? (fun e => decide (e.1 = k))).map (fun e => e.2)

/-- Python `d.keys()`. -/
def dkeys (d : List (PyStr × DirFile)) : List PyStr := d.map (fun e => e.1)

theorem dfind_of_mem_dkeys (k : PyStr) (d : List (PyStr × DirFile))
    (h : k ∈ dkeys d) : ∃ v, dfind k d = some v := by
  induction d with
  | nil => simp [dkeys] at h
  | cons e rest ih =>
    by_cases he : e.1 = k
    · exact ⟨e.2, by simp [dfind, List.find?, he]⟩
    · have : k ∈ dkeys rest := by
        simp only [dkeys, List.map_cons, List.mem_cons] at h
        rcases h with h | h
        · exact absurd h.symm he
        · exact h
      obtain ⟨v, hv⟩ := ih this
      have hstep : (e :: rest).find? (fun x => decide (x.1 = k)) =
          rest.find? (fun x => decide (x.1 = k)) := by
        simp [List.find?, he]
      refine ⟨v, ?_⟩
      unfold dfind at hv ⊢
      rw [hstep]
      exact hv

/-! ## `_find_texture_files` (lines 429–496) -/

/-- The classification state built by the `for blp in all_blps` loop
(lines 459–473): the `base_skins` and `extra_skins` dicts and the
`plain_texture` slot. -/
structure ScanState where
  baseSkins : List (PyStr × DirFile)
  extraSkins : List (PyStr × DirFile)
  plain : Option DirFile
deriving DecidableEq

/-- One iteration of the classification loop (lines 459–473). -/
def scanStep (baseLower skinLower : PyStr) (st : ScanState) (blp : DirFile) :
    ScanState :=
  let stemLower := lowerS blp.stem
  if stemLower = baseLower then { st with plain := some blp }
  else if ¬ (skinLower.isPrefixOf stemLower) then
    (if st.plain = none then { st with plain := some blp } else st)
  else
    let suffix := stemLower.drop skinLower.length
    if ("_extra".data).isSuffixOf suffix then
      { st with extraSkins := dinsert (suffix.take (suffix.length - 6)) blp
                                st.extraSkins }
    else
      { st with baseSkins := dinsert suffix blp st.baseSkins }

/-- Lines 449–452: the `.blp` files whose stem starts (case-insensitively)
with the model base name, in sorted order. -/
def allBlpsOf (modelBase : PyStr) (entries : List DirFile) : List DirFile :=
  sortBy (fun a b => strLe (fullName a) (fullName b))
    (entries.filter (fun f =>
      decide (lowerS f.ext = ".blp".data) &&
        (lowerS modelBase).isPrefixOf (lowerS f.stem)))

/-- The classification loop over the sorted `.blp` candidates. -/
def scanOf (modelBase : PyStr) (entries : List DirFile) : ScanState :=
  (allBlpsOf modelBase entries).foldl
    (scanStep (lowerS modelBase) (lowerS (modelBase ++ "skin".data))) ⟨[], [], none⟩

/-- `set(base_skins.keys()) & set(extra_skins.keys())` (line 475). -/
def commonSuffixes (st : ScanState) : List PyStr :=
  (dkeys st.baseSkins).filter (fun k => decide (k ∈ dkeys st.extraSkins))

/-- `sorted(..., reverse=True)` of the common suffixes (line 475). -/
def pairedSuffixes (st : ScanState) : List PyStr :=
  sortBy (fun a b => strLe b a) (commonSuffixes st)

/-- Lines 475–494: build the `tex_map` from the scan state.  In the paired
branch the source indexes `base_skins[key]` / `extra_skins[key]` directly
(a `KeyError` if absent — unreachable, since `key` comes from the key-set
intersection); the `none` fallbacks below are that unreachable branch. -/
def texMapOf (st : ScanState) (allBlps : List DirFile) : List (ℕ × DirFile) :=
  let m :=
    match pairedSuffixes st with
    | key :: _ =>
      (match dfind key st.baseSkins with
       | some b => [(1, b)] | none => []) ++
      (match dfind key st.extraSkins with
       | some e => [(8, e)] | none => [])
    | [] =>
      (match sortBy (fun a b => strLe b a) (dkeys st.baseSkins) with
       | k :: _ =>
         (match dfind k st.baseSkins with | some b => [(1, b)] | none => [])
       | [] => []) ++
      (match sortBy (fun a b => strLe b a) (dkeys st.extraSkins) with
       | k :: _ =>
         (match dfind k st.extraSkins with | some e => [(8, e)] | none => [])
       | [] => [])
  let m2 := if m = [] then
      (match st.plain with | some p => [(11, p)] | none => m)
    else m
  if m2 = [] then (match allBlps with | b :: _ => [(11, b)] | [] => []) else m2

/-- `_find_texture_files` (lines 429–496).  `isDir` is `m2_dir.is_dir()`;
`listing` is the result of `m2_dir.iterdir()`, `.error ()` when listing the
directory raises (e.g. an unreadable directory). -/
def findTextureFiles (isDir : Bool) (listing : Except Unit (List DirFile))
    (modelBase : PyStr) : Except Unit (List (ℕ × DirFile)) :=
  if ¬ isDir then .ok []
  else
    match listing with
    | .error e => .error e
    | .ok entries =>
      .ok (texMapOf (scanOf modelBase entries) (allBlpsOf modelBase entries))

/-! ## Claim C7 -/

/-- The directory of the specification's scenario: `HeroSkin00.blp`,
`HeroSkin00_Extra.blp`, `HeroSkin01.blp`. -/
def heroEntries : List DirFile :=
  [⟨"HeroSkin00".data, ".blp".data⟩,
   ⟨"HeroSkin00_Extra".data, ".blp".data⟩,
   ⟨"HeroSkin01".data, ".blp".data⟩]

/-- C7: whenever the intersection of base-skin and extra-skin suffixes is
non-empty, the selected suffix is a common suffix that is lexicographically
greatest among the common suffixes, its base file is mapped to the primary
type 1 and its extra file to the overlay type 8 — base and extra from the
same suffix.  Concretely, for base name `Hero` over `HeroSkin00.blp`,
`HeroSkin00_Extra.blp`, `HeroSkin01.blp`, the result maps 1 to
`HeroSkin00.blp` and 8 to `HeroSkin00_Extra.blp`. -/
theorem claim_C7 :
    (∀ (modelBase : PyStr) (entries : List DirFile) (key : PyStr)
        (rest : List PyStr),
        pairedSuffixes (scanOf modelBase entries) = key :: rest →
        key ∈ commonSuffixes (scanOf modelBase entries) ∧
        (∀ s ∈ commonSuffixes (scanOf modelBase entries), strLe s key = true) ∧
        ∃ b e, dfind key (scanOf modelBase entries).baseSkins = some b ∧
          dfind key (scanOf modelBase entries).extraSkins = some e ∧
          findTextureFiles true (.ok entries) modelBase = .ok [(1, b), (8, e)]) ∧
    findTextureFiles true (.ok heroEntries) ("Hero".data) =
      .ok [(1, ⟨"HeroSkin00".data, ".blp".data⟩),
           (8, ⟨"HeroSkin00_Extra".data, ".blp".data⟩)] := by
  constructor
  · intro modelBase entries key rest hpair
    have hmax := sortBy_head_greatest (fun a b => strLe b a)
      (fun a b => by exact strLe_total b a)
      (fun a b c hab hbc => by exact strLe_trans c b a hbc hab)
      (commonSuffixes (scanOf modelBase entries)) key rest hpair
    have hkeyb : key ∈ dkeys (scanOf modelBase entries).baseSkins := by
      have := hmax.1
      unfold commonSuffixes at this
      exact (List.mem_filter.mp this).1
    have hkeye : key ∈ dkeys (scanOf modelBase entries).extraSkins := by
      have := hmax.1
      unfold commonSuffixes at this
      have := (List.mem_filter.mp this).2
      simpa using this
    obtain ⟨b, hb⟩ := dfind_of_mem_dkeys key _ hkeyb
    obtain ⟨e, he⟩ := dfind_of_mem_dkeys key _ hkeye
    refine ⟨hmax.1, fun s hs => hmax.2 s hs, b, e, hb, he, ?_⟩
    have hft : findTextureFiles true (.ok entries) modelBase =
        .ok (texMapOf (scanOf modelBase entries) (allBlpsOf modelBase entries)) :=
      rfl
    rw [hft]
    unfold texMapOf
    simp only [hpair, hb, he]
    simp
  · rfl

theorem claim_C7_witness :
    "00".data ∈ commonSuffixes (scanOf "Hero".data heroEntries) ∧
    (∀ s ∈ commonSuffixes (scanOf "Hero".data heroEntries),
      strLe s "00".data = true) ∧
    ∃ b e, dfind "00".data (scanOf "Hero".data heroEntries).baseSkins = some b ∧
      dfind "00".data (scanOf "Hero".data heroEntries).extraSkins = some e ∧
      findTextureFiles true (.ok heroEntries) "Hero".data = .ok [(1, b), (8, e)] :=
  claim_C7.1 "Hero".data heroEntries "00".data [] rfl

/-! ## `_resolve_texture_path` (lines 499–521) and `_resolve_textures`
(lines 524–560) -/

/-- `tex_path.replace('\\', '/')` (line 505). -/
def normSeps (s : PyStr) : PyStr := s.map (fun c => if c = '\\' then '/' else c)

/-- `Path(tex_norm).name` (line 506): the text after the last `/`. -/
def lastComponent (s : PyStr) : PyStr := ((s.splitOn '/').getLast?).getD s

/-- The parent-walk loop of lines 514–519: try
`parent / tex_norm` at each ancestor, stopping at the first hit or at the
filesystem root (`parent == parent.parent`). -/
def walkParents (texNorm : PyStr) (fsExists : PyStr → Bool)
    (isRoot : PyStr → Bool) : List PyStr → Option PyStr
  | [] => none
  | p :: rest =>
    if fsExists (p ++ ('/' :: texNorm)) then some (p ++ ('/' :: texNorm))
    else if isRoot p then none
    else walkParents texNorm fsExists isRoot rest

/-- `_resolve_texture_path` (lines 499–521).  `localFiles` is
`local_dir.iterdir()` by file name — `.error ()` when the listing raises
(missing or unreadable directory); `parents` is `local_dir.parents`;
`fsExists` is `Path.exists` (which swallows filesystem errors). -/
def resolveTexturePath (texPath : PyStr) (localFiles : Except Unit (List PyStr))
    (parents : List PyStr) (fsExists isRoot : PyStr → Bool) :
    Except Unit (Option PyStr) :=
  match localFiles with
  | .error e => .error e
  | .ok files =>
    match files.find?
        (fun f => decide (lowerS f = lowerS (lastComponent (normSeps texPath)))) with
    | some f => .ok (some f)
    | none => .ok (walkParents (normSeps texPath) fsExists isRoot parents)

/-- A texture-table entry: semantic `type` and embedded `filename`
(empty ⇔ replaceable, the source's `if not tex.filename`). -/
structure M2Texture where
  type : ℕ
  filename : PyStr
deriving DecidableEq

/-- The `for i, tex in enumerate(m2.textures)` loop of lines 546–555,
carrying the running slot index `i`: a replaceable slot is looked up by type
in the strategy-1 map, a hardcoded slot goes through
`_resolve_texture_path`; unresolved slots produce no entry. -/
def resolveSlots (localNames : Except Unit (List PyStr))
    (byType : List (ℕ × DirFile)) (parents : List PyStr)
    (fsExists isRoot : PyStr → Bool) :
    ℕ → List M2Texture → Except Unit (List (ℕ × PyStr))
  | _, [] => .ok []
  | i, tex :: rest =>
    if tex.filename = [] then
      match byType.lookup tex.type with
      | some f =>
        match resolveSlots localNames byType parents fsExists isRoot (i + 1) rest with
        | .error e => .error e
        | .ok m => .ok ((i, fullName f) :: m)
      | none => resolveSlots localNames byType parents fsExists isRoot (i + 1) rest
    else
      match resolveTexturePath tex.filename localNames parents fsExists isRoot with
      | .error e => .error e
      | .ok none => resolveSlots localNames byType parents fsExists isRoot (i + 1) rest
      | .ok (some p) =>
        match resolveSlots localNames byType parents fsExists isRoot (i + 1) rest with
        | .error e => .error e
        | .ok m => .ok ((i, p) :: m)

/-- `_resolve_textures` (lines 524–560): strategy-1 scan, then either pass
the type-keyed map through (no texture table) or resolve each declared slot. -/
def resolveTextures (textures : List M2Texture) (isDir : Bool)
    (listing : Except Unit (List DirFile)) (modelBase : PyStr)
    (parents : List PyStr) (fsExists isRoot : PyStr → Bool) :
    Except Unit (List (ℕ × PyStr)) :=
  match findTextureFiles isDir listing modelBase with
  | .error e => .error e
  | .ok byType =>
    if textures = [] then .ok (byType.map (fun e => (e.1, fullName e.2)))
    else resolveSlots (listing.map (List.map fullName)) byType parents
      fsExists isRoot 0 textures

/-! ## Claim C8 -/

theorem lookup_none_of_keys_ne (m : List (ℕ × PyStr)) (k : ℕ)
    (h : ∀ x ∈ m, x.1 ≠ k) : m.lookup k = none := by
  induction m with
  | nil => rfl
  | cons a m ih =>
    have hk : ¬ (k == a.1) = true := by
      simp only [beq_iff_eq]
      exact fun hkk => (h a (List.mem_cons_self a m)) hkk.symm
    simp only [List.lookup, Bool.not_eq_true] at hk ⊢
    rw [hk]
    exact ih fun x hx => h x (List.mem_cons_of_mem a hx)

theorem resolveSlots_keys_ge (localNames : Except Unit (List PyStr))
    (byType : List (ℕ × DirFile)) (parents : List PyStr)
    (fsExists isRoot : PyStr → Bool) :
    ∀ (texs : List M2Texture) (i : ℕ) (m : List (ℕ × PyStr)),
      resolveSlots localNames byType parents fsExists isRoot i texs = .ok m →
      ∀ x ∈ m, i ≤ x.1 := by
  intro texs
  induction texs with
  | nil =>
    intro i m h x hx
    injection h with h
    subst h
    simp at hx
  | cons t rest ih =>
    intro i m h x hx
    unfold resolveSlots at h
    by_cases hf : t.filename = []
    · rw [if_pos hf] at h
      cases hl : byType.lookup t.type with
      | none =>
        rw [hl] at h
        have := ih (i + 1) m h x hx
        omega
      | some f =>
        rw [hl] at h
        cases hr : resolveSlots localNames byType parents fsExists isRoot
            (i + 1) rest with
        | error e => rw [hr] at h; cases h
        | ok m2 =>
          rw [hr] at h
          injection h with h
          subst h
          rcases List.mem_cons.mp hx with rfl | hx2
          · omega
          · have := ih (i + 1) m2 hr x hx2
            omega
    · rw [if_neg hf] at h
      cases hp : resolveTexturePath t.filename localNames parents fsExists isRoot with
      | error e => rw [hp] at h; cases h
      | ok o =>
        rw [hp] at h
        cases o with
        | none =>
          have := ih (i + 1) m h x hx
          omega
        | some p =>
          cases hr : resolveSlots localNames byType parents fsExists isRoot
              (i + 1) rest with
          | error e => rw [hr] at h; cases h
          | ok m2 =>
            rw [hr] at h
            injection h with h
            subst h
            rcases List.mem_cons.mp hx with rfl | hx2
            · omega
            · have := ih (i + 1) m2 hr x hx2
              omega

theorem resolveSlots_unresolved_absent (localNames : Except Unit (List PyStr))
    (byType : List (ℕ × DirFile)) (parents : List PyStr)
    (fsExists isRoot : PyStr → Bool) :
    ∀ (texs : List M2Texture) (i : ℕ) (m : List (ℕ × PyStr)) (j : ℕ)
      (tex : M2Texture),
      resolveSlots localNames byType parents fsExists isRoot i texs = .ok m →
      texs[j]? = some tex →
      ((tex.filename = [] ∧ byType.lookup tex.type = none) ∨
       (tex.filename ≠ [] ∧
        resolveTexturePath tex.filename localNames parents fsExists isRoot =
          .ok none)) →
      m.lookup (i + j) = none := by
  intro texs
  induction texs with
  | nil =>
    intro i m j tex h hj
    simp at hj
  | cons t rest ih =>
    intro i m j tex h hj hun
    cases j with
    | zero =>
      rw [List.getElem?_cons_zero] at hj
      injection hj with hj
      subst hj
      unfold resolveSlots at h
      have hrest : resolveSlots localNames byType parents fsExists isRoot
          (i + 1) rest = .ok m := by
        rcases hun with ⟨hf, hl⟩ | ⟨hf, hp⟩
        · rwa [if_pos hf, hl] at h
        · rwa [if_neg hf, hp] at h
      apply lookup_none_of_keys_ne
      intro x hx
      have := resolveSlots_keys_ge localNames byType parents fsExists isRoot
        rest (i + 1) m hrest x hx
      omega
    | succ j =>
      rw [List.getElem?_cons_succ] at hj
      unfold resolveSlots at h
      by_cases hf : t.filename = []
      · rw [if_pos hf] at h
        cases hl : byType.lookup t.type with
        | none =>
          rw [hl] at h
          rw [show i + (j + 1) = (i + 1) + j by omega]
          exact ih (i + 1) m j tex h hj hun
        | some f =>
          rw [hl] at h
          cases hr : resolveSlots localNames byType parents fsExists isRoot
              (i + 1) rest with
          | error e => rw [hr] at h; cases h
          | ok m2 =>
            rw [hr] at h
            injection h with h
            subst h
            rw [show List.lookup (i + (j + 1)) ((i, fullName f) :: m2) =
                List.lookup (i + (j + 1)) m2 by
              simp only [List.lookup]
              rw [show ((i + (j + 1)) == i) = false by
                simp only [beq_eq_false_iff_ne]
                omega]]
            rw [show i + (j + 1) = (i + 1) + j by omega]
            exact ih (i + 1) m2 j tex hr hj hun
      · rw [if_neg hf] at h
        cases hp : resolveTexturePath t.filename localNames parents
            fsExists isRoot with
        | error e => rw [hp] at h; cases h
        | ok o =>
          rw [hp] at h
          cases o with
          | none =>
            rw [show i + (j + 1) = (i + 1) + j by omega]
            exact ih (i + 1) m j tex h hj hun
          | some p =>
            cases hr : resolveSlots localNames byType parents fsExists isRoot
                (i + 1) rest with
            | error e => rw [hr] at h; cases h
            | ok m2 =>
              rw [hr] at h
              injection h with h
              subst h
              rw [show List.lookup (i + (j + 1)) ((i, p) :: m2) =
                  List.lookup (i + (j + 1)) m2 by
                simp only [List.lookup]
                rw [show ((i + (j + 1)) == i) = false by
                  simp only [beq_eq_false_iff_ne]
                  omega]]
              rw [show i + (j + 1) = (i + 1) + j by omega]
              exact ih (i + 1) m2 j tex hr hj hun

/-- C8 (amended): strategy 1 (`_find_texture_files`) degrades a *missing*
search directory (`is_dir()` false) to an empty mapping without touching the
listing, and a slot neither strategy resolves is simply absent from the
returned mapping (its index has no entry); but a directory whose *listing*
raises is NOT degraded — `_find_texture_files` propagates the exception for
an unreadable directory, and `_resolve_texture_path` iterates the directory
unguarded, so `_resolve_textures` with a hardcoded slot propagates a
listing failure (see the counterexample). -/
theorem claim_C8 :
    (∀ (listing : Except Unit (List DirFile)) (modelBase : PyStr),
        findTextureFiles false listing modelBase = .ok []) ∧
    (∀ (localNames : Except Unit (List PyStr)) (byType : List (ℕ × DirFile))
        (parents : List PyStr) (fsExists isRoot : PyStr → Bool)
        (texs : List M2Texture) (m : List (ℕ × PyStr)) (j : ℕ)
        (tex : M2Texture),
        resolveSlots localNames byType parents fsExists isRoot 0 texs = .ok m →
        texs[j]? = some tex →
        ((tex.filename = [] ∧ byType.lookup tex.type = none) ∨
         (tex.filename ≠ [] ∧
          resolveTexturePath tex.filename localNames parents fsExists isRoot =
            .ok none)) →
        m.lookup j = none) :=
  ⟨fun _ _ => rfl,
   fun localNames byType parents fsExists isRoot texs m j tex h hj hun => by
    have := resolveSlots_unresolved_absent localNames byType parents fsExists
      isRoot texs 0 m j tex h hj hun
    simpa using this⟩

/-- C8 counterexample: with a missing search directory (`is_dir()` false,
listing raising `FileNotFoundError`) and one hardcoded texture slot,
`_resolve_textures` propagates the exception to the caller instead of
degrading to "no match": strategy 1 returns an empty map without touching
the listing, but `_resolve_texture_path` iterates the directory unguarded. -/
theorem claim_C8_counterexample :
    resolveTextures [⟨0, "Tex.blp".data⟩] false (.error ()) "Hero".data []
      (fun _ => false) (fun _ => false) = .error () := rfl

/-- An unmatched replaceable slot (type 2, no adjacent file of that type). -/
def capeSlot : M2Texture := ⟨2, []⟩

theorem claim_C8_witness :
    findTextureFiles false (.error ()) "Hero".data = .ok [] ∧
    List.lookup 0 ([] : List (ℕ × PyStr)) = none :=
  ⟨claim_C8.1 (.error ()) "Hero".data,
   claim_C8.2 (.ok []) [] [] (fun _ => false) (fun _ => false) [capeSlot] [] 0
     capeSlot rfl rfl (Or.inl ⟨rfl, rfl⟩)⟩
